import Mathlib

/-!
# Verification of the video-chapter-trimmer core

Shallow embedding of the chapter parser / segment builder
(`src/video_chapter_trimmer/parser.py`), the timestamp utilities
(`src/video_chapter_trimmer/utils.py`), the data model
(`src/video_chapter_trimmer/models.py`) and the chapter remapper
(`src/video_chapter_trimmer/chapter_writer.py`).

Timestamps and durations (Python `timedelta` values, which in this program
are always whole numbers of milliseconds) are embedded as `Int` counts of
milliseconds.  Fallible Python code (raising `ValueError`) is embedded with
`Except`.
-/

deriving instance DecidableEq for Except

/-- Embeds Python `str.startswith` (used with the exclusion marker,
default `--`): the candidate head is a character-list prefix of the
string. -/
def strStartsWith (s p : String) : Bool := p.data.isPrefixOf s.data

/-- Embeds Python `str.strip()` with no argument: remove leading and
trailing whitespace (the source only meets ASCII whitespace here). -/
def pyStrip (s : String) : String :=
  String.mk ((s.data.dropWhile Char.isWhitespace).reverse.dropWhile
    Char.isWhitespace).reverse

/-- Embeds `models.Chapter`: a marker line, `timestamp` in milliseconds. -/
structure Chapter where
  timestamp : Int
  title : String
deriving DecidableEq, Repr

/-- Embeds `models.VideoSegment`.  The Python field `end` (a keyword in
Lean) is named `stop` here; `stop = none` embeds `end is None`
(an open-ended tail segment). -/
structure VideoSegment where
  start : Int
  stop : Option Int
deriving DecidableEq, Repr

/-- Embeds the `VideoSegment.duration` property:
`self.end - self.start if self.end else None`.  Note the Python condition
`if self.end` is truthiness, not an `is None` test: a present `end` equal
to `timedelta(0)` is falsy, so the property also returns `None` then. -/
def VideoSegment.duration (s : VideoSegment) : Option Int :=
  match s.stop with
  | none => none
  | some e => if e = 0 then none else some (e - s.start)

/-- Numeric value of a decimal digit character (`int` applied to it). -/
def digitVal (c : Char) : Nat := c.toNat - 48

/-- `int` applied to a string of decimal digits. -/
def natOfDigits (cs : List Char) : Nat := cs.foldl (fun a c => 10 * a + digitVal c) 0

/-- Embeds `TimeParser.TIME_PATTERN`, the anchored regular expression
with groups for hours (one or more digits), minutes (two digits),
seconds (two digits) and milliseconds (three digits).  A greedy maximal
digit run for the hours group is equivalent to the regex because the
character after the hours group must be a colon, which is not a digit. -/
def matchTime (cs : List Char) : Option (Nat × Nat × Nat × Nat) :=
  let hd := cs.takeWhile Char.isDigit
  match cs.dropWhile Char.isDigit with
  | ':' :: m1 :: m2 :: ':' :: s1 :: s2 :: '.' :: d1 :: d2 :: d3 :: [] =>
    if !hd.isEmpty && m1.isDigit && m2.isDigit && s1.isDigit && s2.isDigit
        && d1.isDigit && d2.isDigit && d3.isDigit then
      some (natOfDigits hd, 10 * digitVal m1 + digitVal m2,
            10 * digitVal s1 + digitVal s2,
            100 * digitVal d1 + 10 * digitVal d2 + digitVal d3)
    else none
  | _ => none

/-- Embeds `TimeParser.parse_timestamp`: match the pattern, reject
minutes or seconds of 60 or more, and build the `timedelta`
(here: its value in milliseconds).  Error strings follow the source
messages (quotation marks elided). -/
def parse_timestamp (ts : String) : Except String Int :=
  match matchTime ts.data with
  | none =>
    Except.error ("Invalid time format: " ++ ts
      ++ ". Expected format: HH:MM:SS.mmm (e.g., 0:00:05.151)")
  | some (h, m, s, ms) =>
    if 60 ≤ m ∨ 60 ≤ s then
      Except.error ("Invalid time values in " ++ ts
        ++ ": minutes and seconds must be < 60")
    else
      Except.ok ((((h * 60 + m) * 60 + s) * 1000 + ms : Nat) : Int)

/-- Embeds `ChapterParser.LINE_PATTERN`: the timestamp shape of
`TIME_PATTERN`, then at least one whitespace character, then the title
(the rest of the line).  The `\s+` being greedy, the title starts after
the maximal whitespace run following the milliseconds. -/
def matchLinePattern (cs : List Char) : Option (List Char × List Char) :=
  let hd := cs.takeWhile Char.isDigit
  match cs.dropWhile Char.isDigit with
  | ':' :: m1 :: m2 :: ':' :: s1 :: s2 :: '.' :: d1 :: d2 :: d3 :: rest =>
    if !hd.isEmpty && m1.isDigit && m2.isDigit && s1.isDigit && s2.isDigit
        && d1.isDigit && d2.isDigit && d3.isDigit
        && !(rest.takeWhile Char.isWhitespace).isEmpty then
      some (hd ++ ':' :: m1 :: m2 :: ':' :: s1 :: s2 :: '.' :: [d1, d2, d3],
            rest.dropWhile Char.isWhitespace)
    else none
  | _ => none

/-- Embeds `ChapterParser._parse_line`: returns the (timestamp string,
title) groups or the invalid-line-format error. -/
def parseLineRaw (line : String) : Except String (String × String) :=
  match matchLinePattern line.data with
  | none =>
    Except.error ("Invalid line format: " ++ line
      ++ ". Expected format: HH:MM:SS.mmm Title")
  | some (tsCh, titleCh) => Except.ok (String.mk tsCh, String.mk titleCh)

/-- One line of the `parse_file` loop body up to the `Chapter`
construction: `_parse_line` then `parse_timestamp`. -/
def readLine (line : String) : Except String (Int × String) :=
  match parseLineRaw line with
  | Except.error e => Except.error e
  | Except.ok (tsStr, title) =>
    match parse_timestamp tsStr with
    | Except.error e => Except.error e
    | Except.ok ts => Except.ok (ts, title)

/-- Errors of `ChapterParser.parse_file`: the empty-file `ValueError`, or
the per-line `ValueError` re-raised as `Error at line i: msg` (carried
here as the 1-based loop index together with the inner message). -/
inductive ParseError where
  | emptyFile : ParseError
  | lineError : Nat → String → ParseError
deriving DecidableEq, Repr

/-- The `for i, line in enumerate(lines, 1)` loop of
`ChapterParser.parse_file`, with its state: accumulated segments and
chapters and the open-segment start `current_start`, plus the final
flush of an unclosed segment. -/
def parseLoop (p : String) :
    List String → Nat → List VideoSegment → List Chapter → Option Int →
    Except ParseError (List VideoSegment × List Chapter)
  | [], _, segs, chaps, cur =>
    match cur with
    | some s => Except.ok (segs ++ [⟨s, none⟩], chaps)
    | none => Except.ok (segs, chaps)
  | line :: rest, i, segs, chaps, cur =>
    match readLine line with
    | Except.error e => Except.error (ParseError.lineError i e)
    | Except.ok (ts, title) =>
      if strStartsWith title p then
        match cur with
        | some s =>
          parseLoop p rest (i + 1) (segs ++ [⟨s, some ts⟩]) (chaps ++ [⟨ts, title⟩]) none
        | none => parseLoop p rest (i + 1) segs (chaps ++ [⟨ts, title⟩]) none
      else
        match cur with
        | some s => parseLoop p rest (i + 1) segs (chaps ++ [⟨ts, title⟩]) (some s)
        | none => parseLoop p rest (i + 1) segs (chaps ++ [⟨ts, title⟩]) (some ts)

/-- Embeds the line preprocessing of `parse_file`:
`[line.strip() for line in f if line.strip()]`. -/
def nonBlankLines (raw : List String) : List String :=
  (raw.map pyStrip).filter (fun l => !l.data.isEmpty)

/-- Embeds `ChapterParser.parse_file` on the file content given as its raw
lines: strip every line, drop the blank ones, fail on an empty result,
then run the scan loop with 1-based numbering over the kept lines. -/
def parse_file (p : String) (raw : List String) :
    Except ParseError (List VideoSegment × List Chapter) :=
  let lines := nonBlankLines raw
  if lines.isEmpty then Except.error ParseError.emptyFile
  else parseLoop p lines 1 [] [] none

/-- The segment production of `parse_file` restated at the marker level
(one `Chapter` per parsed line): the same two-state scan on
`current_start`, used to relate the parser to the claims about segment
lists. -/
def buildSegments (p : String) : List Chapter → Option Int → List VideoSegment
  | [], none => []
  | [], some s => [⟨s, none⟩]
  | c :: rest, cur =>
    if strStartsWith c.title p then
      match cur with
      | some s => ⟨s, some c.timestamp⟩ :: buildSegments p rest none
      | none => buildSegments p rest none
    else
      match cur with
      | some s => buildSegments p rest (some s)
      | none => buildSegments p rest (some c.timestamp)

/-- Modelled from the spec, section 4.1 (the claim of C2 compares the
code against this): the two-state scan given by steps 3 and 4, as a fold
of a step function over the markers, followed by step 5, the final
emission of a still-open segment with an open-ended end. -/
def specStep (p : String) (st : List VideoSegment × Option Int) (c : Chapter) :
    List VideoSegment × Option Int :=
  if strStartsWith c.title p then
    match st.2 with
    | some s => (st.1 ++ [⟨s, some c.timestamp⟩], none)
    | none => (st.1, none)
  else
    match st.2 with
    | some s => (st.1, some s)
    | none => (st.1, some c.timestamp)

/-- Modelled from the spec, section 4.1: run `specStep` from the empty
state, then emit the still-open segment if any. -/
def specScan (p : String) (markers : List Chapter) : List VideoSegment :=
  let st := markers.foldl (specStep p) ([], none)
  match st.2 with
  | some s => st.1 ++ [⟨s, none⟩]
  | none => st.1

/-- Embeds the loop body condition of
`ChapterWriter._find_segment_for_timestamp` for one segment: open-ended
segments contain every timestamp at or after their start; bounded ones
contain timestamps in the half-open interval. -/
def segContains (s : VideoSegment) (ts : Int) : Prop :=
  match s.stop with
  | none => s.start ≤ ts
  | some e => s.start ≤ ts ∧ ts < e

instance (s : VideoSegment) (ts : Int) : Decidable (segContains s ts) := by
  unfold segContains
  cases s.stop <;> infer_instance

/-- The search loop of `_find_segment_for_timestamp`, carrying the
enumeration index. -/
def findSegAux (ts : Int) : List VideoSegment → Nat → Option Nat
  | [], _ => none
  | s :: rest, i =>
    if segContains s ts then some i else findSegAux ts rest (i + 1)

/-- Embeds `ChapterWriter._find_segment_for_timestamp`: index of the
first segment containing the timestamp, if any. -/
def findSegmentForTimestamp (ts : Int) (segs : List VideoSegment) : Option Nat :=
  findSegAux ts segs 0

/-- What one segment adds in the prefix-duration loop of
`generate_edited_chapters`:
`if segments[i].duration: new_timestamp += segments[i].duration`.
The `if` is Python truthiness, so a `duration` of `None` or
`timedelta(0)` contributes nothing. -/
def segKept (s : VideoSegment) : Int :=
  match s.duration with
  | some d => if d = 0 then 0 else d
  | none => 0

/-- The prefix-duration loop of `generate_edited_chapters`:
`for i in range(segment_index): ...` summed over the first `n` segments. -/
def keptDurations (segs : List VideoSegment) (n : Nat) : Int :=
  ((segs.take n).map segKept).sum

/-- The duration `end − start` of the data-model specification (section 3
of the spec); for an open-ended segment (where the spec leaves it
undefined) this total function returns 0.  Claims that use it only do so
for bounded segments. -/
def specDuration (s : VideoSegment) : Int := s.stop.getD s.start - s.start

/-- The per-chapter body of the `generate_edited_chapters` loop: skip
exclusion-prefixed titles, find the containing segment, and rebase the
timestamp by the preceding kept durations plus the offset in the
containing segment. -/
def remapChapter (p : String) (segments : List VideoSegment) (c : Chapter) :
    Option Chapter :=
  if strStartsWith c.title p then none
  else
    match findSegmentForTimestamp c.timestamp segments with
    | none => none
    | some i =>
      some ⟨keptDurations segments i
              + (c.timestamp - (segments.getD i ⟨0, none⟩).start), c.title⟩

/-- Embeds `ChapterWriter.generate_edited_chapters`: the loop appending
the remapped chapter (when any) for each original chapter in order. -/
def generate_edited_chapters (p : String) (chapters : List Chapter)
    (segments : List VideoSegment) : List Chapter :=
  chapters.filterMap (remapChapter p segments)

/-! ## Relating the parser loop to the marker-level scan -/

lemma specStep_foldl (p : String) :
    ∀ (ms : List Chapter) (acc : List VideoSegment) (cur : Option Int),
      (match (ms.foldl (specStep p) (acc, cur)).2 with
       | some s => (ms.foldl (specStep p) (acc, cur)).1 ++ [⟨s, none⟩]
       | none => (ms.foldl (specStep p) (acc, cur)).1)
      = acc ++ buildSegments p ms cur := by
  intro ms
  induction ms with
  | nil =>
    intro acc cur
    cases cur <;> simp [buildSegments]
  | cons c rest ih =>
    intro acc cur
    rw [List.foldl_cons]
    by_cases hp : strStartsWith c.title p
    · cases cur with
      | some s =>
        rw [show specStep p (acc, some s) c = (acc ++ [⟨s, some c.timestamp⟩], none) by
          simp [specStep, hp]]
        rw [ih]
        simp [buildSegments, hp]
      | none =>
        rw [show specStep p (acc, none) c = (acc, none) by simp [specStep, hp]]
        rw [ih]
        simp [buildSegments, hp]
    · cases cur with
      | some s =>
        rw [show specStep p (acc, some s) c = (acc, some s) by simp [specStep, hp]]
        rw [ih]
        simp [buildSegments, hp]
      | none =>
        rw [show specStep p (acc, none) c = (acc, some c.timestamp) by
          simp [specStep, hp]]
        rw [ih]
        simp [buildSegments, hp]

lemma specScan_eq_buildSegments (p : String) (ms : List Chapter) :
    specScan p ms = buildSegments p ms none := by
  have h := specStep_foldl p ms [] none
  simpa [specScan] using h

lemma parseLoop_ok_shape (p : String) :
    ∀ (lines : List String) (i : Nat) (segs : List VideoSegment)
      (chaps : List Chapter) (cur : Option Int) (S : List VideoSegment)
      (C : List Chapter),
      parseLoop p lines i segs chaps cur = Except.ok (S, C) →
      ∃ ms, C = chaps ++ ms ∧ S = segs ++ buildSegments p ms cur := by
  intro lines
  induction lines with
  | nil =>
    intro i segs chaps cur S C h
    refine ⟨[], ?_, ?_⟩ <;> cases cur <;>
      simp_all [parseLoop, buildSegments]
  | cons line rest ih =>
    intro i segs chaps cur S C h
    rw [parseLoop] at h
    cases hr : readLine line with
    | error e => rw [hr] at h; exact absurd h (by simp)
    | ok v =>
      obtain ⟨ts, title⟩ := v
      rw [hr] at h
      by_cases hp : strStartsWith title p
      · simp only [hp, if_true] at h
        cases cur with
        | some s =>
          obtain ⟨ms, hC, hS⟩ := ih _ _ _ _ _ _ h
          exact ⟨⟨ts, title⟩ :: ms, by simp [hC], by simp [hS, buildSegments, hp]⟩
        | none =>
          obtain ⟨ms, hC, hS⟩ := ih _ _ _ _ _ _ h
          exact ⟨⟨ts, title⟩ :: ms, by simp [hC], by simp [hS, buildSegments, hp]⟩
      · simp only [hp, if_false] at h
        cases cur with
        | some s =>
          obtain ⟨ms, hC, hS⟩ := ih _ _ _ _ _ _ h
          exact ⟨⟨ts, title⟩ :: ms, by simp [hC], by simp [hS, buildSegments, hp]⟩
        | none =>
          obtain ⟨ms, hC, hS⟩ := ih _ _ _ _ _ _ h
          exact ⟨⟨ts, title⟩ :: ms, by simp [hC], by simp [hS, buildSegments, hp]⟩

lemma parse_file_ok_shape {p : String} {raw : List String}
    {S : List VideoSegment} {C : List Chapter}
    (h : parse_file p raw = Except.ok (S, C)) :
    S = buildSegments p C none := by
  rw [parse_file] at h
  by_cases he : (nonBlankLines raw).isEmpty
  · simp [he] at h
  · simp only [he, if_false] at h
    obtain ⟨ms, hC, hS⟩ := parseLoop_ok_shape p _ _ _ _ _ _ _ h
    simp at hC
    subst hC
    simpa using hS

/-- C2: for every well-formed input line sequence (one that `parse_file`
accepts), the segment list returned by `parse_file` is exactly the one
produced by the two-state scan of spec section 4.1 (`specScan`, modelled
from the spec text) run over the recorded chapters: an exclusion marker
closes the open segment (or is a no-op), an inclusion marker opens a
segment only when none is open, and a still-open segment is emitted once
at the end with an open-ended end. -/
theorem spec_C2 {p : String} {raw : List String} {S : List VideoSegment}
    {C : List Chapter} (h : parse_file p raw = Except.ok (S, C)) :
    S = specScan p C := by
  rw [specScan_eq_buildSegments]
  exact parse_file_ok_shape h

/-- Witness for C2 at the five-line scenario of spec section 8. -/
theorem spec_C2_witness :
    parse_file "--" ["0:00:05.151 Opening", "0:01:05.822 --CM",
        "0:02:36.160 Main Content", "0:26:25.064 --CM", "0:28:25.179 Ending"] =
      Except.ok ([⟨5151, some 65822⟩, ⟨156160, some 1585064⟩, ⟨1705179, none⟩],
        [⟨5151, "Opening"⟩, ⟨65822, "--CM"⟩, ⟨156160, "Main Content"⟩,
         ⟨1585064, "--CM"⟩, ⟨1705179, "Ending"⟩])
    ∧ [⟨5151, some 65822⟩, ⟨156160, some 1585064⟩, ⟨1705179, none⟩]
        = specScan "--" [⟨5151, "Opening"⟩, ⟨65822, "--CM"⟩,
            ⟨156160, "Main Content"⟩, ⟨1585064, "--CM"⟩, ⟨1705179, "Ending"⟩] :=
  ⟨by decide, spec_C2
    ((by decide : parse_file "--" ["0:00:05.151 Opening", "0:01:05.822 --CM",
        "0:02:36.160 Main Content", "0:26:25.064 --CM", "0:28:25.179 Ending"] =
      Except.ok ([⟨5151, some 65822⟩, ⟨156160, some 1585064⟩, ⟨1705179, none⟩],
        [⟨5151, "Opening"⟩, ⟨65822, "--CM"⟩, ⟨156160, "Main Content"⟩,
         ⟨1585064, "--CM"⟩, ⟨1705179, "Ending"⟩])))⟩

/-! ## Invariants of the segment scan under increasing markers -/

lemma buildSegments_strict (p : String) :
    ∀ (ms : List Chapter) (cur : Option Int),
      (ms.map Chapter.timestamp).Pairwise (fun a b => a < b) →
      (∀ s, cur = some s → ∀ m ∈ ms, s < m.timestamp) →
      (∀ sg ∈ buildSegments p ms cur, ∀ e, sg.stop = some e → sg.start < e)
      ∧ (buildSegments p ms cur).Pairwise
          (fun a b => a.start < b.start ∧ ∃ e, a.stop = some e ∧ e ≤ b.start)
      ∧ (∀ sg ∈ buildSegments p ms cur,
           (∃ s, cur = some s ∧ sg.start = s)
           ∨ ∃ m ∈ ms, sg.start = m.timestamp) := by
  intro ms
  induction ms with
  | nil =>
    intro cur hPW hcur
    cases cur with
    | none => simp [buildSegments]
    | some s =>
      refine ⟨?_, ?_, ?_⟩
      · intro sg hm e he
        simp [buildSegments] at hm
        subst hm
        simp at he
      · simp [buildSegments]
      · intro sg hm
        simp [buildSegments] at hm
        subst hm
        exact Or.inl ⟨s, rfl, rfl⟩
  | cons c rest ih =>
    intro cur hPW hcur
    rw [List.map_cons, List.pairwise_cons] at hPW
    obtain ⟨hhead, htail⟩ := hPW
    by_cases hp : strStartsWith c.title p
    · cases cur with
      | some s =>
        have hs_lt : s < c.timestamp := hcur s rfl c (List.mem_cons_self c rest)
        obtain ⟨ih1, ih2, ih3⟩ := ih none htail (by intro s hs; exact absurd hs (by simp))
        have hL : buildSegments p (c :: rest) (some s)
            = ⟨s, some c.timestamp⟩ :: buildSegments p rest none := by
          simp [buildSegments, hp]
        rw [hL]
        refine ⟨?_, ?_, ?_⟩
        · intro sg hm e he
          rcases List.mem_cons.1 hm with hm | hm
          · subst hm
            simp at he
            show s < e
            omega
          · exact ih1 sg hm e he
        · refine List.Pairwise.cons ?_ ih2
          intro x hx
          rcases ih3 x hx with ⟨s', hs', _⟩ | ⟨m, hm, hxs⟩
          · exact absurd hs' (by simp)
          · have hcm : c.timestamp < m.timestamp :=
              hhead m.timestamp (List.mem_map.2 ⟨m, hm, rfl⟩)
            exact ⟨by show s < x.start; omega, c.timestamp, rfl, by omega⟩
        · intro sg hm
          rcases List.mem_cons.1 hm with hm | hm
          · subst hm
            exact Or.inl ⟨s, rfl, rfl⟩
          · rcases ih3 sg hm with ⟨s', hs', _⟩ | ⟨m, hmm, hs⟩
            · exact absurd hs' (by simp)
            · exact Or.inr ⟨m, List.mem_cons_of_mem c hmm, hs⟩
      | none =>
        obtain ⟨ih1, ih2, ih3⟩ := ih none htail (by intro s hs; exact absurd hs (by simp))
        have hL : buildSegments p (c :: rest) none = buildSegments p rest none := by
          simp [buildSegments, hp]
        rw [hL]
        refine ⟨ih1, ih2, ?_⟩
        intro sg hm
        rcases ih3 sg hm with ⟨s', hs', _⟩ | ⟨m, hmm, hs⟩
        · exact absurd hs' (by simp)
        · exact Or.inr ⟨m, List.mem_cons_of_mem c hmm, hs⟩
    · cases cur with
      | some s =>
        obtain ⟨ih1, ih2, ih3⟩ := ih (some s) htail
          (by
            intro s' hs' m hm
            cases hs'
            exact hcur s rfl m (List.mem_cons_of_mem c hm))
        have hL : buildSegments p (c :: rest) (some s)
            = buildSegments p rest (some s) := by
          simp [buildSegments, hp]
        rw [hL]
        refine ⟨ih1, ih2, ?_⟩
        intro sg hm
        rcases ih3 sg hm with hleft | ⟨m, hmm, hs⟩
        · exact Or.inl hleft
        · exact Or.inr ⟨m, List.mem_cons_of_mem c hmm, hs⟩
      | none =>
        obtain ⟨ih1, ih2, ih3⟩ := ih (some c.timestamp) htail
          (by
            intro s' hs' m hm
            cases hs'
            exact hhead m.timestamp (List.mem_map.2 ⟨m, hm, rfl⟩))
        have hL : buildSegments p (c :: rest) none
            = buildSegments p rest (some c.timestamp) := by
          simp [buildSegments, hp]
        rw [hL]
        refine ⟨ih1, ih2, ?_⟩
        intro sg hm
        rcases ih3 sg hm with ⟨s', hs', hsg⟩ | ⟨m, hmm, hs⟩
        · refine Or.inr ⟨c, List.mem_cons_self c rest, ?_⟩
          cases hs'
          exact hsg
        · exact Or.inr ⟨m, List.mem_cons_of_mem c hmm, hs⟩

/-- C6: on any input that `parse_file` accepts and whose marker
timestamps are strictly increasing, every returned segment with a
present end has `start < end`, the segments are in strictly increasing
start order and pairwise non-overlapping (each segment ends at or before
the next one starts), and only the last segment can be open-ended. -/
theorem spec_C6 {p : String} {raw : List String} {S : List VideoSegment}
    {C : List Chapter} (hok : parse_file p raw = Except.ok (S, C))
    (hinc : (C.map Chapter.timestamp).Chain' (fun a b => a < b)) :
    (∀ sg ∈ S, ∀ e, sg.stop = some e → sg.start < e)
    ∧ S.Chain' (fun a b => a.start < b.start ∧ ∃ e, a.stop = some e ∧ e ≤ b.start)
    ∧ ∀ i, i + 1 < S.length → (S.getD i ⟨0, none⟩).stop ≠ none := by
  have hS := parse_file_ok_shape hok
  subst hS
  have hPW : (C.map Chapter.timestamp).Pairwise (fun a b => a < b) :=
    List.chain'_iff_pairwise.1 hinc
  obtain ⟨h1, h2, _⟩ := buildSegments_strict p C none hPW
    (by intro s hs; exact absurd hs (by simp))
  refine ⟨h1, h2.chain', ?_⟩
  intro i hi
  have hlen : i < (buildSegments p C none).length := by omega
  have hrel := List.pairwise_iff_getElem.1 h2 i (i + 1) hlen hi (by omega)
  obtain ⟨_, e, he, _⟩ := hrel
  rw [List.getD_eq_getElem _ _ hlen, he]
  simp

/-- Witness for C6 at the five-line scenario of spec section 8. -/
theorem spec_C6_witness :
    (∀ sg ∈ [(⟨5151, some 65822⟩ : VideoSegment), ⟨156160, some 1585064⟩,
        ⟨1705179, none⟩], ∀ e, sg.stop = some e → sg.start < e)
    ∧ ([(⟨5151, some 65822⟩ : VideoSegment), ⟨156160, some 1585064⟩,
        ⟨1705179, none⟩]).Chain'
        (fun a b => a.start < b.start ∧ ∃ e, a.stop = some e ∧ e ≤ b.start)
    ∧ ∀ i, i + 1 < ([(⟨5151, some 65822⟩ : VideoSegment), ⟨156160, some 1585064⟩,
        ⟨1705179, none⟩]).length →
        (([(⟨5151, some 65822⟩ : VideoSegment), ⟨156160, some 1585064⟩,
          ⟨1705179, none⟩]).getD i ⟨0, none⟩).stop ≠ none :=
  spec_C6
    ((by decide : parse_file "--" ["0:00:05.151 Opening", "0:01:05.822 --CM",
        "0:02:36.160 Main Content", "0:26:25.064 --CM", "0:28:25.179 Ending"] =
      Except.ok ([⟨5151, some 65822⟩, ⟨156160, some 1585064⟩, ⟨1705179, none⟩],
        [⟨5151, "Opening"⟩, ⟨65822, "--CM"⟩, ⟨156160, "Main Content"⟩,
         ⟨1585064, "--CM"⟩, ⟨1705179, "Ending"⟩])))
    (by simp only [List.map_cons, List.map_nil, List.chain'_cons,
      List.chain'_singleton, and_true]
        omega)

/-! ## The first-containing-segment search -/

lemma findSegAux_add (ts : Int) :
    ∀ (segs : List VideoSegment) (k : Nat),
      findSegAux ts segs k = (findSegAux ts segs 0).map (fun j => k + j) := by
  intro segs
  induction segs with
  | nil => intro k; simp [findSegAux]
  | cons s rest ih =>
    intro k
    by_cases hc : segContains s ts
    · simp [findSegAux, hc]
    · rw [findSegAux, findSegAux, if_neg hc, if_neg hc, ih (k + 1), ih 1,
        Option.map_map]
      congr 1
      funext j
      show k + 1 + j = k + (1 + j)
      omega

lemma findSeg_cons (ts : Int) (s : VideoSegment) (rest : List VideoSegment) :
    findSegmentForTimestamp ts (s :: rest) =
      if segContains s ts then some 0
      else (findSegmentForTimestamp ts rest).map (fun j => 1 + j) := by
  by_cases hc : segContains s ts
  · simp [findSegmentForTimestamp, findSegAux, hc]
  · rw [findSegmentForTimestamp, findSegAux, if_neg hc, if_neg hc,
      findSegAux_add ts rest 1]
    rfl

lemma findSeg_some_iff (ts : Int) :
    ∀ (segs : List VideoSegment) (i : Nat),
      findSegmentForTimestamp ts segs = some i ↔
      ∃ h : i < segs.length, segContains segs[i] ts
        ∧ ∀ j, j < i → ¬ segContains (segs.getD j ⟨0, none⟩) ts := by
  intro segs
  induction segs with
  | nil =>
    intro i
    constructor
    · intro h; exact absurd h (by simp [findSegmentForTimestamp, findSegAux])
    · intro ⟨h, _⟩; exact absurd h (by simp)
  | cons s rest ih =>
    intro i
    rw [findSeg_cons]
    by_cases hc : segContains s ts
    · rw [if_pos hc]
      constructor
      · intro h
        have hi : i = 0 := by
          have := Option.some.inj h
          omega
        subst hi
        exact ⟨by simp, by simpa using hc, by omega⟩
      · intro ⟨h, hcont, hfirst⟩
        cases i with
        | zero => rfl
        | succ j =>
          exact absurd hc (by simpa using hfirst 0 (by omega))
    · rw [if_neg hc]
      constructor
      · intro h
        rcases Option.map_eq_some'.1 h with ⟨j, hj, hij⟩
        obtain ⟨hlen, hcont, hfirst⟩ := (ih j).1 hj
        subst hij
        refine ⟨by simp only [List.length_cons]; omega, ?_, ?_⟩
        · have h1 : 1 + j = j + 1 := Nat.add_comm 1 j
          simp only [h1, List.getElem_cons_succ]
          exact hcont
        intro j' hj'
        cases j' with
        | zero => simpa using hc
        | succ j'' =>
          have : j'' < j := by omega
          simpa using hfirst j'' this
      · intro ⟨h, hcont, hfirst⟩
        cases i with
        | zero => exact absurd (by simpa using hcont) hc
        | succ j =>
          have hj : findSegmentForTimestamp ts rest = some j := by
            refine (ih j).2 ⟨by simpa using h, by simpa using hcont, ?_⟩
            intro j' hj'
            simpa using hfirst (j' + 1) (by omega)
          rw [hj]
          simp [Nat.add_comm]

lemma findSeg_none_iff (ts : Int) :
    ∀ (segs : List VideoSegment),
      findSegmentForTimestamp ts segs = none ↔ ∀ s ∈ segs, ¬ segContains s ts := by
  intro segs
  induction segs with
  | nil => simp [findSegmentForTimestamp, findSegAux]
  | cons s rest ih =>
    rw [findSeg_cons]
    by_cases hc : segContains s ts
    · simp [hc]
    · simp [hc, ih]

lemma findSeg_lt_length {ts : Int} {segs : List VideoSegment} {i : Nat}
    (h : findSegmentForTimestamp ts segs = some i) : i < segs.length :=
  ((findSeg_some_iff ts segs i).1 h).1

/-- C3: the remapper emits a chapter exactly when its title does not
start with the exclusion marker and some segment contains its
timestamp; the containing segment found by
`_find_segment_for_timestamp` is the first one (in segment order) whose
half-open interval `start ≤ t < end` — or, when open-ended,
`start ≤ t` — contains the timestamp.  A chapter with a prefixed title
or outside every segment yields `none` (a silent drop: the function is
total and raises nothing). -/
theorem spec_C3 (p : String) (segs : List VideoSegment) (ts : Int) (c : Chapter) :
    (∀ i, findSegmentForTimestamp ts segs = some i ↔
       ∃ h : i < segs.length, segContains segs[i] ts
         ∧ ∀ j, j < i → ¬ segContains (segs.getD j ⟨0, none⟩) ts)
    ∧ (remapChapter p segs c ≠ none ↔
        strStartsWith c.title p = false ∧ ∃ s ∈ segs, segContains s c.timestamp) := by
  refine ⟨fun i => findSeg_some_iff ts segs i, ?_⟩
  rw [remapChapter]
  by_cases hp : strStartsWith c.title p
  · simp [hp]
  · simp only [hp, if_false, Bool.false_eq_true, not_false_iff, true_and,
      eq_self_iff_true]
    cases hf : findSegmentForTimestamp c.timestamp segs with
    | none =>
      simp only [hf]
      constructor
      · intro h; exact absurd rfl h
      · intro ⟨s, hs, hcont⟩
        exact absurd hcont ((findSeg_none_iff c.timestamp segs).1 hf s hs)
    | some i =>
      simp only [hf]
      constructor
      · intro _
        obtain ⟨hlen, hcont, _⟩ := (findSeg_some_iff c.timestamp segs i).1 hf
        exact ⟨segs[i], List.getElem_mem hlen, hcont⟩
      · intro _
        simp

/-! ## The prefix-sum offset formula -/

lemma segKept_eq_specDuration {s : VideoSegment} {e : Int} (he : s.stop = some e)
    (h0 : 0 ≤ s.start) (hle : s.start ≤ e) : segKept s = e - s.start := by
  by_cases h : e = 0
  · subst h
    have hstart : s.start = 0 := le_antisymm hle h0
    simp [segKept, VideoSegment.duration, he, hstart]
  · by_cases hz : e - s.start = 0
    · simp only [segKept, VideoSegment.duration, he, if_neg h, if_pos hz]
      omega
    · simp [segKept, VideoSegment.duration, he, h, hz]

lemma keptDurations_eq_spec :
    ∀ (segs : List VideoSegment) (i : Nat),
      (∀ j, j < i → ∃ e, (segs.getD j ⟨0, none⟩).stop = some e
         ∧ 0 ≤ (segs.getD j ⟨0, none⟩).start ∧ (segs.getD j ⟨0, none⟩).start ≤ e) →
      keptDurations segs i = ((segs.take i).map specDuration).sum := by
  intro segs
  induction segs with
  | nil => intro i _; simp [keptDurations]
  | cons s rest ih =>
    intro i hj
    cases i with
    | zero => simp [keptDurations]
    | succ n =>
      obtain ⟨e, he, h0, hle⟩ := hj 0 (by omega)
      simp only [List.getD_cons_zero] at he h0 hle
      have hs : segKept s = specDuration s := by
        rw [segKept_eq_specDuration he h0 hle, specDuration, he]
        rfl
      have hrest := ih n (by
        intro j hjn
        have := hj (j + 1) (by omega)
        simpa using this)
      rw [keptDurations] at hrest
      simp only [keptDurations, List.take_succ_cons, List.map_cons, List.sum_cons]
      rw [hs, hrest]

/-- C1: a chapter the remapper emits receives the new timestamp equal to
the sum of the durations (`end − start`, the data-model duration
`specDuration`) of the segments preceding its containing segment, plus
its offset `timestamp − start` inside that segment.  The hypothesis that
every preceding segment is bounded with `0 ≤ start ≤ end` is what the
construction of spec section 4.1 guarantees (an open-ended segment never
precedes another kept segment, and parsed timestamps are non-negative).
In particular, in the five-line scenario of spec section 8 the chapters
are remapped to 0:00:00.000 (Opening), 0:01:00.671 = 60671 ms
(Main Content) and 0:24:49.575 = 1489575 ms (Ending). -/
theorem spec_C1 :
    (∀ (p : String) (segs : List VideoSegment) (c : Chapter) (i : Nat),
       strStartsWith c.title p = false →
       findSegmentForTimestamp c.timestamp segs = some i →
       (∀ j, j < i → ∃ e, (segs.getD j ⟨0, none⟩).stop = some e
          ∧ 0 ≤ (segs.getD j ⟨0, none⟩).start ∧ (segs.getD j ⟨0, none⟩).start ≤ e) →
       remapChapter p segs c =
         some ⟨((segs.take i).map specDuration).sum
                 + (c.timestamp - (segs.getD i ⟨0, none⟩).start), c.title⟩)
    ∧ parse_file "--" ["0:00:05.151 Opening", "0:01:05.822 --CM",
        "0:02:36.160 Main Content", "0:26:25.064 --CM", "0:28:25.179 Ending"] =
      Except.ok ([⟨5151, some 65822⟩, ⟨156160, some 1585064⟩, ⟨1705179, none⟩],
        [⟨5151, "Opening"⟩, ⟨65822, "--CM"⟩, ⟨156160, "Main Content"⟩,
         ⟨1585064, "--CM"⟩, ⟨1705179, "Ending"⟩])
    ∧ generate_edited_chapters "--"
        [⟨5151, "Opening"⟩, ⟨65822, "--CM"⟩, ⟨156160, "Main Content"⟩,
         ⟨1585064, "--CM"⟩, ⟨1705179, "Ending"⟩]
        [⟨5151, some 65822⟩, ⟨156160, some 1585064⟩, ⟨1705179, none⟩]
      = [⟨0, "Opening"⟩, ⟨60671, "Main Content"⟩, ⟨1489575, "Ending"⟩] := by
  refine ⟨?_, by decide, by decide⟩
  intro p segs c i hp hf hbound
  rw [remapChapter]
  simp only [hp, Bool.false_eq_true, if_false, hf]
  rw [keptDurations_eq_spec segs i hbound]

/-- Witness for C1: the universally quantified formula applied to the
Main Content chapter of the scenario (containing segment index 1). -/
theorem spec_C1_witness :
    remapChapter "--" [⟨5151, some 65822⟩, ⟨156160, some 1585064⟩, ⟨1705179, none⟩]
        ⟨156160, "Main Content"⟩ =
      some ⟨((([⟨5151, some 65822⟩, ⟨156160, some 1585064⟩,
                ⟨1705179, none⟩] : List VideoSegment).take 1).map specDuration).sum
              + ((156160 : Int) - (([⟨5151, some 65822⟩, ⟨156160, some 1585064⟩,
                  ⟨1705179, none⟩] : List VideoSegment).getD 1 ⟨0, none⟩).start),
            "Main Content"⟩ :=
  spec_C1.1 "--" [⟨5151, some 65822⟩, ⟨156160, some 1585064⟩, ⟨1705179, none⟩]
    ⟨156160, "Main Content"⟩ 1 (by decide) (by decide)
    (by
      intro j hj
      have hj0 : j = 0 := by omega
      subst hj0
      exact ⟨65822, by decide, by decide, by decide⟩)

/-! ## Monotonicity of the remapping -/

lemma buildSegments_mono (p : String) :
    ∀ (ms : List Chapter) (cur : Option Int),
      (ms.map Chapter.timestamp).Pairwise (fun a b => a ≤ b) →
      (∀ m ∈ ms, 0 ≤ m.timestamp) →
      (∀ s, cur = some s → 0 ≤ s ∧ ∀ m ∈ ms, s ≤ m.timestamp) →
      (∀ sg ∈ buildSegments p ms cur,
         0 ≤ sg.start ∧ ∀ e, sg.stop = some e → sg.start ≤ e)
      ∧ (buildSegments p ms cur).Pairwise
          (fun a b => a.start ≤ b.start ∧ ∃ e, a.stop = some e ∧ e ≤ b.start)
      ∧ (∀ sg ∈ buildSegments p ms cur,
           (∃ s, cur = some s ∧ sg.start = s)
           ∨ ∃ m ∈ ms, sg.start = m.timestamp) := by
  intro ms
  induction ms with
  | nil =>
    intro cur hPW hnn hcur
    cases cur with
    | none => simp [buildSegments]
    | some s =>
      refine ⟨?_, ?_, ?_⟩
      · intro sg hm
        simp [buildSegments] at hm
        subst hm
        exact ⟨(hcur s rfl).1, by intro e he; simp at he⟩
      · simp [buildSegments]
      · intro sg hm
        simp [buildSegments] at hm
        subst hm
        exact Or.inl ⟨s, rfl, rfl⟩
  | cons c rest ih =>
    intro cur hPW hnn hcur
    rw [List.map_cons, List.pairwise_cons] at hPW
    obtain ⟨hhead, htail⟩ := hPW
    have hnn_rest : ∀ m ∈ rest, 0 ≤ m.timestamp :=
      fun m hm => hnn m (List.mem_cons_of_mem c hm)
    by_cases hp : strStartsWith c.title p
    · cases cur with
      | some s =>
        obtain ⟨hs0, hsle⟩ := hcur s rfl
        have hs_le : s ≤ c.timestamp := hsle c (List.mem_cons_self c rest)
        obtain ⟨ih1, ih2, ih3⟩ := ih none htail hnn_rest
          (by intro s' hs'; exact absurd hs' (by simp))
        have hL : buildSegments p (c :: rest) (some s)
            = ⟨s, some c.timestamp⟩ :: buildSegments p rest none := by
          simp [buildSegments, hp]
        rw [hL]
        refine ⟨?_, ?_, ?_⟩
        · intro sg hm
          rcases List.mem_cons.1 hm with hm | hm
          · subst hm
            refine ⟨hs0, ?_⟩
            intro e he
            simp at he
            show s ≤ e
            omega
          · exact ih1 sg hm
        · refine List.Pairwise.cons ?_ ih2
          intro x hx
          rcases ih3 x hx with ⟨s', hs', _⟩ | ⟨m, hm, hxs⟩
          · exact absurd hs' (by simp)
          · have hcm : c.timestamp ≤ m.timestamp :=
              hhead m.timestamp (List.mem_map.2 ⟨m, hm, rfl⟩)
            exact ⟨by show s ≤ x.start; omega, c.timestamp, rfl, by omega⟩
        · intro sg hm
          rcases List.mem_cons.1 hm with hm | hm
          · subst hm
            exact Or.inl ⟨s, rfl, rfl⟩
          · rcases ih3 sg hm with ⟨s', hs', _⟩ | ⟨m, hmm, hs⟩
            · exact absurd hs' (by simp)
            · exact Or.inr ⟨m, List.mem_cons_of_mem c hmm, hs⟩
      | none =>
        obtain ⟨ih1, ih2, ih3⟩ := ih none htail hnn_rest
          (by intro s' hs'; exact absurd hs' (by simp))
        have hL : buildSegments p (c :: rest) none = buildSegments p rest none := by
          simp [buildSegments, hp]
        rw [hL]
        refine ⟨ih1, ih2, ?_⟩
        intro sg hm
        rcases ih3 sg hm with ⟨s', hs', _⟩ | ⟨m, hmm, hs⟩
        · exact absurd hs' (by simp)
        · exact Or.inr ⟨m, List.mem_cons_of_mem c hmm, hs⟩
    · cases cur with
      | some s =>
        obtain ⟨hs0, hsle⟩ := hcur s rfl
        obtain ⟨ih1, ih2, ih3⟩ := ih (some s) htail hnn_rest
          (by
            intro s' hs'
            cases hs'
            exact ⟨hs0, fun m hm => hsle m (List.mem_cons_of_mem c hm)⟩)
        have hL : buildSegments p (c :: rest) (some s)
            = buildSegments p rest (some s) := by
          simp [buildSegments, hp]
        rw [hL]
        refine ⟨ih1, ih2, ?_⟩
        intro sg hm
        rcases ih3 sg hm with hleft | ⟨m, hmm, hs⟩
        · exact Or.inl hleft
        · exact Or.inr ⟨m, List.mem_cons_of_mem c hmm, hs⟩
      | none =>
        obtain ⟨ih1, ih2, ih3⟩ := ih (some c.timestamp) htail hnn_rest
          (by
            intro s' hs'
            cases hs'
            exact ⟨hnn c (List.mem_cons_self c rest),
              fun m hm => hhead m.timestamp (List.mem_map.2 ⟨m, hm, rfl⟩)⟩)
        have hL : buildSegments p (c :: rest) none
            = buildSegments p rest (some c.timestamp) := by
          simp [buildSegments, hp]
        rw [hL]
        refine ⟨ih1, ih2, ?_⟩
        intro sg hm
        rcases ih3 sg hm with ⟨s', hs', hsg⟩ | ⟨m, hmm, hs⟩
        · refine Or.inr ⟨c, List.mem_cons_self c rest, ?_⟩
          cases hs'
          exact hsg
        · exact Or.inr ⟨m, List.mem_cons_of_mem c hmm, hs⟩

lemma segKept_nonneg {s : VideoSegment} (h0 : 0 ≤ s.start)
    (hle : ∀ e, s.stop = some e → s.start ≤ e) : 0 ≤ segKept s := by
  rw [segKept]
  cases hstop : s.stop with
  | none => simp [VideoSegment.duration, hstop]
  | some e =>
    have := hle e hstop
    by_cases h : e = 0
    · simp [VideoSegment.duration, hstop, h]
    · by_cases hz : e - s.start = 0 <;>
        simp [VideoSegment.duration, hstop, h, hz] <;> omega

lemma keptDurations_le {segs : List VideoSegment}
    (hpos : ∀ sg ∈ segs, 0 ≤ segKept sg) {i j : Nat} (hij : i ≤ j) :
    keptDurations segs i ≤ keptDurations segs j := by
  rw [keptDurations, keptDurations]
  have hsplit : segs.take j = segs.take i ++ (segs.take j).drop i := by
    conv_lhs => rw [← List.take_append_drop i (segs.take j)]
    rw [List.take_take, Nat.min_eq_left hij]
  rw [hsplit, List.map_append, List.sum_append]
  have : 0 ≤ (((segs.take j).drop i).map segKept).sum := by
    apply List.sum_nonneg
    intro x hx
    rcases List.mem_map.1 hx with ⟨sg, hsg, hxeq⟩
    subst hxeq
    exact hpos sg (List.take_subset j segs (List.drop_subset i (segs.take j) hsg))
  omega

lemma keptDurations_succ {segs : List VideoSegment} {i : Nat}
    (hi : i < segs.length) :
    keptDurations segs (i + 1) = keptDurations segs i + segKept (segs.getD i ⟨0, none⟩) := by
  rw [keptDurations, keptDurations, List.take_succ, List.map_append, List.sum_append,
    List.getElem?_eq_getElem hi]
  rw [List.getD_eq_getElem _ _ hi]
  simp

lemma findSeg_mono {segs : List VideoSegment}
    (H1 : ∀ sg ∈ segs, 0 ≤ sg.start ∧ ∀ e, sg.stop = some e → sg.start ≤ e)
    (H2 : segs.Pairwise (fun a b => a.start ≤ b.start ∧ ∃ e, a.stop = some e ∧ e ≤ b.start))
    {ts1 ts2 : Int} {i1 i2 : Nat} (hts : ts1 ≤ ts2)
    (h1 : findSegmentForTimestamp ts1 segs = some i1)
    (h2 : findSegmentForTimestamp ts2 segs = some i2) : i1 ≤ i2 := by
  by_contra hcon
  have hlt : i2 < i1 := by omega
  obtain ⟨hlen1, hcont1, hfirst1⟩ := (findSeg_some_iff ts1 segs i1).1 h1
  obtain ⟨hlen2, hcont2, _⟩ := (findSeg_some_iff ts2 segs i2).1 h2
  have hnc : ¬ segContains (segs.getD i2 ⟨0, none⟩) ts1 := hfirst1 i2 hlt
  rw [List.getD_eq_getElem _ _ hlen2] at hnc
  have hrel := List.pairwise_iff_getElem.1 H2 i2 i1 hlen2 hlen1 hlt
  obtain ⟨hss, e2, he2, hes⟩ := hrel
  rw [segContains, he2] at hcont2 hnc
  obtain ⟨hs2, ht2⟩ := hcont2
  have hts1lt : ts1 < segs[i2].start := by
    by_contra hge
    exact hnc ⟨by omega, by omega⟩
  have hcont1' : segs[i1].start ≤ ts1 := by
    rw [segContains] at hcont1
    cases hstop : segs[i1].stop with
    | none => rw [hstop] at hcont1; exact hcont1
    | some e => rw [hstop] at hcont1; exact hcont1.1
  omega

lemma newTimestamp_mono {segs : List VideoSegment}
    (H1 : ∀ sg ∈ segs, 0 ≤ sg.start ∧ ∀ e, sg.stop = some e → sg.start ≤ e)
    (H2 : segs.Pairwise (fun a b => a.start ≤ b.start ∧ ∃ e, a.stop = some e ∧ e ≤ b.start))
    {ts1 ts2 : Int} {i1 i2 : Nat} (hts : ts1 ≤ ts2)
    (h1 : findSegmentForTimestamp ts1 segs = some i1)
    (h2 : findSegmentForTimestamp ts2 segs = some i2) :
    keptDurations segs i1 + (ts1 - (segs.getD i1 ⟨0, none⟩).start)
      ≤ keptDurations segs i2 + (ts2 - (segs.getD i2 ⟨0, none⟩).start) := by
  have hmono := findSeg_mono H1 H2 hts h1 h2
  obtain ⟨hlen1, hcont1, _⟩ := (findSeg_some_iff ts1 segs i1).1 h1
  obtain ⟨hlen2, hcont2, _⟩ := (findSeg_some_iff ts2 segs i2).1 h2
  have hstart2 : (segs.getD i2 ⟨0, none⟩).start ≤ ts2 := by
    rw [List.getD_eq_getElem _ _ hlen2]
    rw [segContains] at hcont2
    cases hstop : segs[i2].stop with
    | none => rw [hstop] at hcont2; exact hcont2
    | some e => rw [hstop] at hcont2; exact hcont2.1
  rcases Nat.lt_or_ge i1 i2 with hlt | hge
  · -- i1 < i2: the chapter in the earlier segment lands before the
    -- accumulated durations reach segment i2.
    have hrel := List.pairwise_iff_getElem.1 H2 i1 i2 hlen1 hlen2 hlt
    obtain ⟨_, e1, he1, _⟩ := hrel
    rw [segContains, he1] at hcont1
    obtain ⟨hs1, ht1⟩ := hcont1
    have hk1 : segKept (segs.getD i1 ⟨0, none⟩) = e1 - segs[i1].start := by
      rw [List.getD_eq_getElem _ _ hlen1]
      exact segKept_eq_specDuration he1 (H1 segs[i1] (List.getElem_mem hlen1)).1
        ((H1 segs[i1] (List.getElem_mem hlen1)).2 e1 he1)
    have hsucc := keptDurations_succ hlen1
    have hle12 : keptDurations segs (i1 + 1) ≤ keptDurations segs i2 := by
      apply keptDurations_le
      · intro sg hsg
        exact segKept_nonneg (H1 sg hsg).1 (H1 sg hsg).2
      · omega
    rw [List.getD_eq_getElem _ _ hlen1]
    omega
  · have heq : i1 = i2 := by omega
    subst heq
    omega

lemma readLine_nonneg {l : String} {ts : Int} {title : String}
    (h : readLine l = Except.ok (ts, title)) : 0 ≤ ts := by
  rw [readLine] at h
  cases hp : parseLineRaw l with
  | error e => rw [hp] at h; exact absurd h (by simp)
  | ok v =>
    obtain ⟨tsStr, t⟩ := v
    rw [hp] at h
    dsimp only at h
    cases hq : parse_timestamp tsStr with
    | error e => rw [hq] at h; exact absurd h (by simp)
    | ok v' =>
      rw [hq] at h
      dsimp only at h
      rw [parse_timestamp] at hq
      cases hm : matchTime tsStr.data with
      | none => rw [hm] at hq; exact absurd hq (by simp)
      | some q =>
        obtain ⟨hh, mm, ss, ms⟩ := q
        rw [hm] at hq
        dsimp only at hq
        by_cases hb : 60 ≤ mm ∨ 60 ≤ ss
        · rw [if_pos hb] at hq; exact absurd hq (by simp)
        · rw [if_neg hb] at hq
          have hv : v' = (((hh * 60 + mm) * 60 + ss) * 1000 + ms : Nat) :=
            (Except.ok.inj hq).symm
          have hts : ts = v' := (Prod.mk.injEq _ _ _ _ ▸ Except.ok.inj h).1.symm
          rw [hts, hv]
          exact Int.natCast_nonneg _

lemma parseLoop_chapters_nonneg (p : String) :
    ∀ (lines : List String) (i : Nat) (segs : List VideoSegment)
      (chaps : List Chapter) (cur : Option Int) (S : List VideoSegment)
      (C : List Chapter),
      parseLoop p lines i segs chaps cur = Except.ok (S, C) →
      (∀ c ∈ chaps, 0 ≤ c.timestamp) →
      ∀ c ∈ C, 0 ≤ c.timestamp := by
  intro lines
  induction lines with
  | nil =>
    intro i segs chaps cur S C h hc
    cases cur <;> simp_all [parseLoop]
  | cons line rest ih =>
    intro i segs chaps cur S C h hc
    rw [parseLoop] at h
    cases hr : readLine line with
    | error e => rw [hr] at h; exact absurd h (by simp)
    | ok v =>
      obtain ⟨ts, title⟩ := v
      rw [hr] at h
      have hts : 0 ≤ ts := readLine_nonneg hr
      have hc2 : ∀ c ∈ chaps ++ [(⟨ts, title⟩ : Chapter)], 0 ≤ c.timestamp := by
        intro c hcm
        rcases List.mem_append.1 hcm with hcm | hcm
        · exact hc c hcm
        · simp at hcm
          subst hcm
          exact hts
      by_cases hp : strStartsWith title p
      · simp only [hp, if_true] at h
        cases cur with
        | some s => exact ih _ _ _ _ _ _ h hc2
        | none => exact ih _ _ _ _ _ _ h hc2
      · simp only [hp, if_false] at h
        cases cur with
        | some s => exact ih _ _ _ _ _ _ h hc2
        | none => exact ih _ _ _ _ _ _ h hc2

lemma parse_file_chapters_nonneg {p : String} {raw : List String}
    {S : List VideoSegment} {C : List Chapter}
    (h : parse_file p raw = Except.ok (S, C)) : ∀ c ∈ C, 0 ≤ c.timestamp := by
  rw [parse_file] at h
  by_cases he : (nonBlankLines raw).isEmpty
  · simp [he] at h
  · simp only [he, if_false] at h
    exact parseLoop_chapters_nonneg p _ _ _ _ _ _ _ h (by simp)

lemma remapChapter_eq_some {p : String} {segs : List VideoSegment} {c b : Chapter}
    (h : remapChapter p segs c = some b) :
    strStartsWith c.title p = false
    ∧ ∃ i, findSegmentForTimestamp c.timestamp segs = some i
        ∧ b = ⟨keptDurations segs i + (c.timestamp - (segs.getD i ⟨0, none⟩).start),
               c.title⟩ := by
  rw [remapChapter] at h
  by_cases hp : strStartsWith c.title p
  · rw [if_pos hp] at h; exact absurd h (by simp)
  · rw [if_neg hp] at h
    refine ⟨by simpa using hp, ?_⟩
    cases hf : findSegmentForTimestamp c.timestamp segs with
    | none => rw [hf] at h; exact absurd h (by simp)
    | some i =>
      rw [hf] at h
      exact ⟨i, rfl, (Option.some.inj h).symm⟩

/-- C7: when `parse_file` accepts an input whose chapter timestamps are
non-decreasing, remapping those chapters over the segment list the
parser derived from them yields new timestamps that are non-decreasing
in output order. -/
theorem spec_C7 {p : String} {raw : List String} {S : List VideoSegment}
    {C : List Chapter} (hok : parse_file p raw = Except.ok (S, C))
    (hmono : (C.map Chapter.timestamp).Chain' (fun a b => a ≤ b)) :
    ((generate_edited_chapters p C S).map Chapter.timestamp).Chain'
      (fun a b => a ≤ b) := by
  have hS := parse_file_ok_shape hok
  have hnn := parse_file_chapters_nonneg hok
  have hPW : (C.map Chapter.timestamp).Pairwise (fun a b => a ≤ b) :=
    List.chain'_iff_pairwise.1 hmono
  subst hS
  obtain ⟨H1, H2, _⟩ := buildSegments_mono p C none hPW hnn
    (by intro s hs; exact absurd hs (by simp))
  have hCpw : C.Pairwise (fun c c' => c.timestamp ≤ c'.timestamp) :=
    List.pairwise_map.1 hPW
  have hout : (generate_edited_chapters p C (buildSegments p C none)).Pairwise
      (fun a b => a.timestamp ≤ b.timestamp) := by
    rw [generate_edited_chapters, List.pairwise_filterMap]
    refine hCpw.imp ?_
    intro c c' hle b hb b' hb'
    rw [Option.mem_def] at hb hb'
    obtain ⟨_, i, hfi, hbe⟩ := remapChapter_eq_some hb
    obtain ⟨_, i', hfi', hbe'⟩ := remapChapter_eq_some hb'
    subst hbe
    subst hbe'
    exact newTimestamp_mono H1 H2 hle hfi hfi'
  exact (List.pairwise_map.2 hout).chain'

/-- Witness for C7 at the five-line scenario of spec section 8. -/
theorem spec_C7_witness :
    ((generate_edited_chapters "--"
        [⟨5151, "Opening"⟩, ⟨65822, "--CM"⟩, ⟨156160, "Main Content"⟩,
         ⟨1585064, "--CM"⟩, ⟨1705179, "Ending"⟩]
        [⟨5151, some 65822⟩, ⟨156160, some 1585064⟩,
         ⟨1705179, none⟩]).map Chapter.timestamp).Chain' (fun a b => a ≤ b) :=
  spec_C7
    ((by decide : parse_file "--" ["0:00:05.151 Opening", "0:01:05.822 --CM",
        "0:02:36.160 Main Content", "0:26:25.064 --CM", "0:28:25.179 Ending"] =
      Except.ok ([⟨5151, some 65822⟩, ⟨156160, some 1585064⟩, ⟨1705179, none⟩],
        [⟨5151, "Opening"⟩, ⟨65822, "--CM"⟩, ⟨156160, "Main Content"⟩,
         ⟨1585064, "--CM"⟩, ⟨1705179, "Ending"⟩])))
    (by
      simp only [List.map_cons, List.map_nil, List.chain'_cons,
        List.chain'_singleton, and_true]
      omega)

/-! ## Idempotence of remapping -/

lemma buildSegments_all_kept (p : String) :
    ∀ (ms : List Chapter) (s : Int),
      (∀ x ∈ ms, strStartsWith x.title p = false) →
      buildSegments p ms (some s) = [⟨s, none⟩] := by
  intro ms
  induction ms with
  | nil => intro s _; rfl
  | cons c rest ih =>
    intro s hall
    have hc : strStartsWith c.title p = false := hall c (List.mem_cons_self c rest)
    have := ih s (fun x hx => hall x (List.mem_cons_of_mem c hx))
    simp [buildSegments, hc, this]

lemma filterMap_id_of_mem {α : Type} (f : α → Option α) :
    ∀ (l : List α), (∀ x ∈ l, f x = some x) → l.filterMap f = l := by
  intro l
  induction l with
  | nil => intro _; rfl
  | cons x xs ih =>
    intro hall
    rw [List.filterMap_cons, hall x (List.mem_cons_self x xs),
      ih (fun y hy => hall y (List.mem_cons_of_mem x hy))]

/-- Counterexample to C8 as stated: the chapter list `[(5 ms, "A")]`
carries no exclusion-prefixed title, and the segment builder derives
from it exactly one open-ended segment starting at the first chapter's
timestamp — the hypotheses the claim names — yet remapping is not the
identity: the single chapter is rebased to timestamp 0, not kept at 5.
(The claim's description only matches remap outputs whose first kept
timestamp is 0; with a nonzero first timestamp the second remap shifts
everything.) -/
theorem spec_C8_counterexample :
    buildSegments "--" [⟨5, "A"⟩] none = [⟨5, none⟩]
    ∧ generate_edited_chapters "--" [⟨5, "A"⟩] [⟨5, none⟩] = [⟨0, "A"⟩]
    ∧ ([(⟨0, "A"⟩ : Chapter)] : List Chapter) ≠ [⟨5, "A"⟩] := by
  refine ⟨by decide, by decide, by decide⟩

/-- C8 (amended): remapping is idempotent for chapter lists in which no
title carries the exclusion marker, whose derived kept segments are the
single open-ended segment at the first chapter's timestamp, provided in
addition that the first chapter's timestamp is 0 and no timestamp is
negative — which is what an actual previous remap run outputs.  Under
these hypotheses the segment builder derives exactly `[⟨0, open⟩]` and
the remapper returns the chapter list unchanged. -/
theorem spec_C8 (p : String) (c : Chapter) (cs : List Chapter)
    (hall : ∀ x ∈ c :: cs, strStartsWith x.title p = false)
    (h0 : c.timestamp = 0)
    (hnn : ∀ x ∈ c :: cs, 0 ≤ x.timestamp) :
    buildSegments p (c :: cs) none = [⟨0, none⟩]
    ∧ generate_edited_chapters p (c :: cs) (buildSegments p (c :: cs) none)
        = c :: cs := by
  have hc : strStartsWith c.title p = false := hall c (List.mem_cons_self c cs)
  have hbuild : buildSegments p (c :: cs) none = [⟨0, none⟩] := by
    have hstep : buildSegments p (c :: cs) none
        = buildSegments p cs (some c.timestamp) := by
      simp [buildSegments, hc]
    rw [hstep, h0, buildSegments_all_kept p cs 0
      (fun x hx => hall x (List.mem_cons_of_mem c hx))]
  refine ⟨hbuild, ?_⟩
  rw [hbuild, generate_edited_chapters]
  apply filterMap_id_of_mem
  intro x hx
  have hx0 : 0 ≤ x.timestamp := hnn x hx
  have hxp : strStartsWith x.title p = false := hall x hx
  rw [remapChapter, hxp]
  have hfind : findSegmentForTimestamp x.timestamp [⟨0, none⟩] = some 0 := by
    rw [findSegmentForTimestamp, findSegAux, if_pos]
    show (0 : Int) ≤ x.timestamp
    exact hx0
  simp only [Bool.false_eq_true, if_false, hfind]
  show some (⟨keptDurations [⟨0, none⟩] 0 + (x.timestamp - 0), x.title⟩ : Chapter)
    = some x
  rw [keptDurations]
  simp only [List.take_zero, List.map_nil, List.sum_nil, Int.zero_add, Int.sub_zero]

/-- Witness for C8 (amended) at a concrete two-chapter list. -/
theorem spec_C8_witness :
    buildSegments "--" [⟨0, "A"⟩, ⟨7, "B"⟩] none = [⟨0, none⟩]
    ∧ generate_edited_chapters "--" [⟨0, "A"⟩, ⟨7, "B"⟩]
        (buildSegments "--" [⟨0, "A"⟩, ⟨7, "B"⟩] none)
      = [⟨0, "A"⟩, ⟨7, "B"⟩] :=
  spec_C8 "--" ⟨0, "A"⟩ [⟨7, "B"⟩] (by decide) (by decide) (by decide)

/-! ## Zero-length segments -/

lemma segContains_degenerate (t ts : Int) : ¬ segContains ⟨t, some t⟩ ts := by
  rw [segContains]
  intro ⟨h1, h2⟩
  exact absurd (lt_of_le_of_lt h1 h2) (lt_irrefl t)

lemma segKept_degenerate (t : Int) : segKept ⟨t, some t⟩ = 0 := by
  by_cases h : t = 0 <;> simp [segKept, VideoSegment.duration, h]

lemma findSegAux_append (ts : Int) :
    ∀ (A B : List VideoSegment) (k : Nat),
      findSegAux ts (A ++ B) k =
        match findSegAux ts A k with
        | some i => some i
        | none => findSegAux ts B (k + A.length) := by
  intro A
  induction A with
  | nil => intro B k; simp [findSegAux]
  | cons s rest ih =>
    intro B k
    by_cases hc : segContains s ts
    · simp [findSegAux, hc]
    · rw [List.cons_append, findSegAux, if_neg hc, findSegAux, if_neg hc, ih B (k + 1)]
      have : k + 1 + rest.length = k + (rest.length + 1) := by omega
      rw [this]
      rfl


lemma keptDurations_append_right (A X : List VideoSegment) (n : Nat) :
    keptDurations (A ++ X) (A.length + n) = (A.map segKept).sum + keptDurations X n := by
  rw [keptDurations, keptDurations, List.take_append, List.map_append, List.sum_append]

lemma remapChapter_middle_degenerate (p : String) (A B : List VideoSegment)
    (t : Int) (c : Chapter) :
    remapChapter p (A ++ ⟨t, some t⟩ :: B) c = remapChapter p (A ++ B) c := by
  rw [remapChapter, remapChapter]
  by_cases hp : strStartsWith c.title p
  · rw [if_pos hp, if_pos hp]
  · rw [if_neg hp, if_neg hp]
    have hL : findSegmentForTimestamp c.timestamp (A ++ ⟨t, some t⟩ :: B)
        = match findSegAux c.timestamp A 0 with
          | some i => some i
          | none => (findSegAux c.timestamp B 0).map (fun j => A.length + 1 + j) := by
      rw [findSegmentForTimestamp, findSegAux_append]
      cases hA : findSegAux c.timestamp A 0 with
      | some i => rfl
      | none =>
        show findSegAux c.timestamp (⟨t, some t⟩ :: B) (0 + A.length) = _
        rw [findSegAux, if_neg (segContains_degenerate t c.timestamp),
          findSegAux_add c.timestamp B (0 + A.length + 1)]
        congr 1
        funext j
        omega
    have hR : findSegmentForTimestamp c.timestamp (A ++ B)
        = match findSegAux c.timestamp A 0 with
          | some i => some i
          | none => (findSegAux c.timestamp B 0).map (fun j => A.length + j) := by
      rw [findSegmentForTimestamp, findSegAux_append]
      cases hA : findSegAux c.timestamp A 0 with
      | some i => rfl
      | none =>
        show findSegAux c.timestamp B (0 + A.length) = _
        rw [findSegAux_add c.timestamp B (0 + A.length)]
        congr 1
        funext j
        omega
    rw [hL, hR]
    cases hA : findSegAux c.timestamp A 0 with
    | some i =>
      dsimp only
      have hiA : i < A.length :=
        findSeg_lt_length (show findSegmentForTimestamp c.timestamp A = some i from hA)
      have hkept : keptDurations (A ++ ⟨t, some t⟩ :: B) i
          = keptDurations (A ++ B) i := by
        rw [keptDurations, keptDurations,
          List.take_append_of_le_length (by omega),
          List.take_append_of_le_length (by omega)]
      have hgd : (A ++ ⟨t, some t⟩ :: B).getD i ⟨0, none⟩
          = (A ++ B).getD i ⟨0, none⟩ := by
        rw [List.getD_append _ _ _ _ hiA, List.getD_append _ _ _ _ hiA]
      rw [hkept, hgd]
    | none =>
      cases hB : findSegAux c.timestamp B 0 with
      | none => rfl
      | some j =>
        dsimp only [Option.map_some']
        have hkept : keptDurations (A ++ ⟨t, some t⟩ :: B) (A.length + 1 + j)
            = keptDurations (A ++ B) (A.length + j) := by
          have h1 : A.length + 1 + j = A.length + (1 + j) := by omega
          have h2 : 1 + j = j + 1 := by omega
          rw [h1, keptDurations_append_right, keptDurations_append_right, h2,
            keptDurations, keptDurations, List.take_succ_cons, List.map_cons,
            List.sum_cons, segKept_degenerate]
          omega
        have hgd : (A ++ ⟨t, some t⟩ :: B).getD (A.length + 1 + j) ⟨0, none⟩
            = (A ++ B).getD (A.length + j) ⟨0, none⟩ := by
          rw [List.getD_append_right _ _ _ _ (by omega),
            List.getD_append_right _ _ _ _ (by omega)]
          have h1 : A.length + 1 + j - A.length = j + 1 := by omega
          have h2 : A.length + j - A.length = j := by omega
          rw [h1, h2, List.getD_cons_succ]
        rw [hkept, hgd]

/-- Counterexample to C10 as stated: in the marker list
`[A at 0, B at 5, --X at 5]` the inclusion marker `B` is immediately
followed by an exclusion marker carrying the identical timestamp 5, yet
the parser emits no zero-length segment: the only emitted segment is
`(0, 5)` — the exclusion closes the segment opened at `A`, while `B`
itself (a no-op inclusion inside an open segment) opens nothing. -/
theorem spec_C10_counterexample :
    buildSegments "--" [⟨0, "A"⟩, ⟨5, "B"⟩, ⟨5, "--X"⟩] none = [⟨0, some 5⟩]
    ∧ (0 : Int) ≠ 5 := ⟨by decide, by decide⟩

/-- C10 (amended): when an inclusion marker at which no segment is open
is immediately followed by an exclusion marker carrying the identical
timestamp, the scan emits the zero-length segment `(t, t)`; such a
segment contains no timestamp under the remapper's containment test,
contributes zero to the prefix-sum offset, and the remapped output
equals the output with the zero-length segment removed from the segment
list. -/
theorem spec_C10 (p : String) (t : Int) (tI tE : String) (rest chs : List Chapter)
    (A B : List VideoSegment)
    (hI : strStartsWith tI p = false) (hE : strStartsWith tE p = true) :
    buildSegments p (⟨t, tI⟩ :: ⟨t, tE⟩ :: rest) none
      = ⟨t, some t⟩ :: buildSegments p rest none
    ∧ (∀ ts, ¬ segContains ⟨t, some t⟩ ts)
    ∧ generate_edited_chapters p chs (A ++ ⟨t, some t⟩ :: B)
        = generate_edited_chapters p chs (A ++ B) := by
  refine ⟨?_, fun ts => segContains_degenerate t ts, ?_⟩
  · simp [buildSegments, hI, hE]
  · rw [generate_edited_chapters, generate_edited_chapters]
    apply List.filterMap_congr
    intro c _
    exact remapChapter_middle_degenerate p A B t c

/-- Witness for C10 (amended) at concrete inputs. -/
theorem spec_C10_witness :
    buildSegments "--" [⟨3, "B"⟩, ⟨3, "--X"⟩] none
      = ⟨3, some 3⟩ :: buildSegments "--" [] none
    ∧ (∀ ts, ¬ segContains ⟨3, some 3⟩ ts)
    ∧ generate_edited_chapters "--" [⟨0, "A"⟩, ⟨4, "C"⟩]
        ([⟨0, some 2⟩] ++ ⟨3, some 3⟩ :: [⟨4, none⟩])
      = generate_edited_chapters "--" [⟨0, "A"⟩, ⟨4, "C"⟩] ([⟨0, some 2⟩] ++ [⟨4, none⟩]) :=
  spec_C10 "--" 3 "B" "--X" [] [⟨0, "A"⟩, ⟨4, "C"⟩] [⟨0, some 2⟩] [⟨4, none⟩]
    (by decide) (by decide)

/-! ## Error reporting of the parser -/

lemma parseLoop_error_at (p : String) :
    ∀ (lines : List String) (k : Nat) (segs : List VideoSegment)
      (chaps : List Chapter) (cur : Option Int) (i : Nat) (e : String),
      i < lines.length →
      (∀ j, j < i → ∃ v, readLine (lines.getD j "") = Except.ok v) →
      readLine (lines.getD i "") = Except.error e →
      parseLoop p lines k segs chaps cur = Except.error (ParseError.lineError (k + i) e) := by
  intro lines
  induction lines with
  | nil =>
    intro k segs chaps cur i e hi _ _
    exact absurd hi (by simp)
  | cons line rest ih =>
    intro k segs chaps cur i e hi hok herr
    cases i with
    | zero =>
      rw [List.getD_cons_zero] at herr
      rw [parseLoop, herr]
      rfl
    | succ n =>
      obtain ⟨v, hv⟩ := hok 0 (by omega)
      rw [List.getD_cons_zero] at hv
      obtain ⟨ts, title⟩ := v
      rw [List.getD_cons_succ] at herr
      have hok' : ∀ j, j < n → ∃ v, readLine (rest.getD j "") = Except.ok v := by
        intro j hj
        have := hok (j + 1) (by omega)
        rwa [List.getD_cons_succ] at this
      have hi' : n < rest.length := by simpa using hi
      have hrec := fun segs' chaps' cur' =>
        ih (k + 1) segs' chaps' cur' n e hi' hok' herr
      rw [parseLoop, hv]
      dsimp only
      have hkn : k + 1 + n = k + (n + 1) := by omega
      by_cases hp : strStartsWith title p
      · simp only [hp, if_true]
        cases cur with
        | some s => dsimp only; rw [hrec _ _ _, hkn]
        | none => dsimp only; rw [hrec _ _ _, hkn]
      · simp only [hp, Bool.false_eq_true, if_false]
        cases cur with
        | some s => dsimp only; rw [hrec _ _ _, hkn]
        | none => dsimp only; rw [hrec _ _ _, hkn]

/-- Counterexample to C4 as stated: the invalid line is the second line
of the input, but because `parse_file` filters out blank lines before
numbering (`enumerate` runs over the non-blank lines), the error names
line 1, not the input line number 2. -/
theorem spec_C4_counterexample :
    parse_file "--" ["", "This is not a valid line", "0:02:36.160 Main Content"]
      = Except.error (ParseError.lineError 1
          ("Invalid line format: This is not a valid line. Expected format: HH:MM:SS.mmm Title"))
    ∧ (1 : Nat) ≠ 2 := ⟨by decide, by decide⟩

/-- C4 (amended): an input with no non-blank line fails with the
empty-input error; otherwise, if the first failing line among the
stripped non-blank lines is at 0-based position `i` (every earlier
non-blank line parses), `parse_file` fails with a format error naming
the 1-based index `i + 1` among the non-blank lines — equal to the input
line number only when no blank line precedes — together with the
message of that line, which names the offending line and the expected
pattern. -/
theorem spec_C4 (p : String) (raw : List String) :
    (nonBlankLines raw = [] → parse_file p raw = Except.error ParseError.emptyFile)
    ∧ (∀ i e, i < (nonBlankLines raw).length →
        (∀ j, j < i → ∃ v, readLine ((nonBlankLines raw).getD j "") = Except.ok v) →
        readLine ((nonBlankLines raw).getD i "") = Except.error e →
        parse_file p raw = Except.error (ParseError.lineError (i + 1) e)) := by
  constructor
  · intro hempty
    rw [parse_file]
    simp [hempty]
  · intro i e hi hok herr
    rw [parse_file]
    have hne : (nonBlankLines raw).isEmpty = false := by
      cases h : nonBlankLines raw with
      | nil => rw [h] at hi; exact absurd hi (by simp)
      | cons a l => simp [h]
    simp only [hne, Bool.false_eq_true, if_false]
    have := parseLoop_error_at p (nonBlankLines raw) 1 [] [] none i e hi hok herr
    rwa [Nat.add_comm 1 i] at this

/-- Witness for C4 (amended): the blank-free three-line file with the
invalid second line is reported as line 2 with the expected pattern in
the message. -/
theorem spec_C4_witness :
    parse_file "--" ["0:00:05.151 Opening", "This is not a valid line",
        "0:02:36.160 Main Content"]
      = Except.error (ParseError.lineError 2
          ("Invalid line format: This is not a valid line. Expected format: HH:MM:SS.mmm Title")) :=
  (spec_C4 "--" ["0:00:05.151 Opening", "This is not a valid line",
      "0:02:36.160 Main Content"]).2 1 _ (by decide)
    (by
      intro j hj
      have hj0 : j = 0 := by omega
      subst hj0
      exact ⟨(5151, "Opening"), by decide⟩)
    (by decide)

/-! ## The timestamp grammar -/

lemma digits_split {xs : List Char} {y : Char} {ys : List Char}
    (hxs : ∀ x ∈ xs, x.isDigit = true) (hy : y.isDigit = false) :
    (xs ++ y :: ys).takeWhile Char.isDigit = xs
    ∧ (xs ++ y :: ys).dropWhile Char.isDigit = y :: ys := by
  constructor
  · rw [List.takeWhile_append_of_pos hxs, List.takeWhile_cons, hy]
    simp
  · rw [List.dropWhile_append_of_pos hxs, List.dropWhile_cons, hy]
    simp

/-- The shape `H+:MM:SS.mmm` of spec section 6 stated declaratively: the
string splits into a nonempty run of digits (hours), a colon, two
digits (minutes), a colon, two digits (seconds), a dot and three digits
(milliseconds), with the fields read as decimal numbers. -/
def TimeShape (str : String) (h m s ms : Nat) : Prop :=
  ∃ hd m1 m2 s1 s2 d1 d2 d3,
    str.data = hd ++ ':' :: m1 :: m2 :: ':' :: s1 :: s2 :: '.' :: [d1, d2, d3]
    ∧ hd ≠ [] ∧ (∀ c ∈ hd, c.isDigit = true)
    ∧ m1.isDigit = true ∧ m2.isDigit = true
    ∧ s1.isDigit = true ∧ s2.isDigit = true
    ∧ d1.isDigit = true ∧ d2.isDigit = true ∧ d3.isDigit = true
    ∧ h = natOfDigits hd
    ∧ m = 10 * digitVal m1 + digitVal m2
    ∧ s = 10 * digitVal s1 + digitVal s2
    ∧ ms = 100 * digitVal d1 + 10 * digitVal d2 + digitVal d3

lemma matchTime_some_iff {str : String} {h m s ms : Nat} :
    matchTime str.data = some (h, m, s, ms) ↔ TimeShape str h m s ms := by
  constructor
  · intro hmt
    rw [matchTime] at hmt
    split at hmt
    case h_2 => exact absurd hmt (by simp)
    case h_1 m1 m2 s1 s2 d1 d2 d3 heq =>
      by_cases hcond : (!(str.data.takeWhile Char.isDigit).isEmpty && m1.isDigit
          && m2.isDigit && s1.isDigit && s2.isDigit && d1.isDigit && d2.isDigit
          && d3.isDigit) = true
      · rw [if_pos hcond] at hmt
        simp only [Option.some.injEq, Prod.mk.injEq] at hmt
        obtain ⟨hv1, hv2, hv3, hv4⟩ := hmt
        simp only [Bool.and_eq_true, Bool.not_eq_eq_eq_not, Bool.not_true,
          List.isEmpty_eq_false] at hcond
        obtain ⟨⟨⟨⟨⟨⟨⟨hne, hm1⟩, hm2⟩, hs1⟩, hs2⟩, hd1⟩, hd2⟩, hd3⟩ := hcond
        refine ⟨str.data.takeWhile Char.isDigit, m1, m2, s1, s2, d1, d2, d3,
          ?_, hne, ?_, hm1, hm2, hs1, hs2, hd1, hd2, hd3,
          hv1.symm, hv2.symm, hv3.symm, hv4.symm⟩
        · conv_lhs => rw [← List.takeWhile_append_dropWhile Char.isDigit str.data]
          rw [heq]
        · intro c hc
          exact List.mem_takeWhile_imp hc
      · rw [if_neg hcond] at hmt
        exact absurd hmt (by simp)
  · intro hshape
    obtain ⟨hd, m1, m2, s1, s2, d1, d2, d3, hsplit, hne, hdig, hm1, hm2, hs1, hs2,
      hd1, hd2, hd3, hh, hm, hs, hms⟩ := hshape
    have hcolon : (':' : Char).isDigit = false := by decide
    obtain ⟨htw, hdw⟩ := digits_split hdig hcolon
    rw [matchTime, hsplit, hdw]
    have hne' : (hd ++ ':' :: m1 :: m2 :: ':' :: s1 :: s2 :: '.'
        :: [d1, d2, d3]).takeWhile Char.isDigit = hd := hsplit ▸ htw
    rw [hne']
    have hcond : (!hd.isEmpty && m1.isDigit && m2.isDigit && s1.isDigit
        && s2.isDigit && d1.isDigit && d2.isDigit && d3.isDigit) = true := by
      simp [hm1, hm2, hs1, hs2, hd1, hd2, hd3, List.isEmpty_iff, hne]
    show (if (!hd.isEmpty && m1.isDigit && m2.isDigit && s1.isDigit && s2.isDigit
        && d1.isDigit && d2.isDigit && d3.isDigit) = true then
        some (natOfDigits hd, 10 * digitVal m1 + digitVal m2,
          10 * digitVal s1 + digitVal s2,
          100 * digitVal d1 + 10 * digitVal d2 + digitVal d3)
      else none) = some (h, m, s, ms)
    rw [if_pos hcond, hh, hm, hs, hms]

/-- C5: `parse_timestamp` succeeds exactly on strings of the shape
`H+:MM:SS.mmm` (`TimeShape`) whose minutes and seconds fields are below
60, returning the duration hours:minutes:seconds.milliseconds as a
millisecond count, and fails with an error otherwise; in particular
`0:60:00.000`, which has the regex shape but minutes equal to 60, is
rejected. -/
theorem spec_C5 (str : String) :
    (∀ v, parse_timestamp str = Except.ok v ↔
       ∃ h m s ms, TimeShape str h m s ms ∧ m < 60 ∧ s < 60
         ∧ v = (((h * 60 + m) * 60 + s) * 1000 + ms : Nat))
    ∧ ((∃ e, parse_timestamp str = Except.error e) ↔
        ¬ ∃ h m s ms, TimeShape str h m s ms ∧ m < 60 ∧ s < 60)
    ∧ ∃ e, parse_timestamp "0:60:00.000" = Except.error e := by
  have hok : ∀ v, parse_timestamp str = Except.ok v ↔
      ∃ h m s ms, TimeShape str h m s ms ∧ m < 60 ∧ s < 60
        ∧ v = (((h * 60 + m) * 60 + s) * 1000 + ms : Nat) := by
    intro v
    rw [parse_timestamp]
    cases hmt : matchTime str.data with
    | none =>
      constructor
      · intro hcontr; exact absurd hcontr (by simp)
      · intro ⟨h, m, s, ms, hshape, _⟩
        have := matchTime_some_iff.2 hshape
        rw [hmt] at this
        exact absurd this (by simp)
    | some q =>
      obtain ⟨h0, m0, s0, ms0⟩ := q
      have hshape0 : TimeShape str h0 m0 s0 ms0 := matchTime_some_iff.1 hmt
      dsimp only
      by_cases hb : 60 ≤ m0 ∨ 60 ≤ s0
      · rw [if_pos hb]
        constructor
        · intro hcontr; exact absurd hcontr (by simp)
        · intro ⟨h, m, s, ms, hshape, hm, hs, _⟩
          have heq := matchTime_some_iff.2 hshape
          rw [hmt] at heq
          simp only [Option.some.injEq, Prod.mk.injEq] at heq
          obtain ⟨h1, h2, h3, h4⟩ := heq
          subst h2
          subst h3
          omega
      · rw [if_neg hb]
        constructor
        · intro hv
          have hv' := Except.ok.inj hv
          exact ⟨h0, m0, s0, ms0, hshape0, by omega, by omega, hv'.symm⟩
        · intro ⟨h, m, s, ms, hshape, hm, hs, hv⟩
          have heq := matchTime_some_iff.2 hshape
          rw [hmt] at heq
          simp only [Option.some.injEq, Prod.mk.injEq] at heq
          obtain ⟨h1, h2, h3, h4⟩ := heq
          subst h1
          subst h2
          subst h3
          subst h4
          rw [hv]
  refine ⟨hok, ?_, ?_⟩
  · constructor
    · intro ⟨e, he⟩ ⟨h, m, s, ms, hshape, hm, hs⟩
      have := (hok _).2 ⟨h, m, s, ms, hshape, hm, hs, rfl⟩
      rw [he] at this
      exact absurd this (by simp)
    · intro hno
      cases hpt : parse_timestamp str with
      | error e => exact ⟨e, rfl⟩
      | ok v =>
        obtain ⟨h, m, s, ms, hshape, hm, hs, _⟩ := (hok v).1 hpt
        exact absurd ⟨h, m, s, ms, hshape, hm, hs⟩ hno
  · exact ⟨"Invalid time values in 0:60:00.000: minutes and seconds must be < 60",
      by decide⟩
